import Mathlib

/-!
Verification of the API-gateway request-processing engine.

Shallow embedding of the gateway's load balancers, rate limiters,
circuit-breaker manager, middleware rate-limit stage and configuration
validation, with theorems checking the specification's claims against
the embedded code.
-/

namespace Gateway

/-! ## Round-robin load balancer (pkg/loadbalancer, `RoundRobin`) -/

/-- State of the `RoundRobin` balancer: the configured target list and the
`current` atomic counter (a Go `uint64`, modelled as a natural number kept
below 2^64). -/
structure RoundRobin where
  targets : List String
  current : Nat
  deriving DecidableEq, Repr

/-- `NewRoundRobin`: the counter starts at zero. -/
def newRoundRobin (targets : List String) : RoundRobin :=
  ⟨targets, 0⟩

/-- `RoundRobin.NextTarget`: if the target list is empty return `none`;
otherwise increment the counter first (`atomic.AddUint64(&rr.current, 1)`,
wrapping at 2^64) and index the list with the NEW counter value modulo the
list length. -/
def rrNextTarget (rr : RoundRobin) : Option String × RoundRobin :=
  if rr.targets.length = 0 then
    (none, rr)
  else
    let cur := (rr.current + 1) % 2 ^ 64
    let index := cur % rr.targets.length
    (rr.targets.get? index, { rr with current := cur })

/-! ## Circuit-breaker manager (internal/circuit, `Manager.ResetBreaker`) -/

/-- The three states of the wrapped gobreaker state machine. -/
inductive GBState where
  | closed
  | halfOpen
  | opened
  deriving DecidableEq, Repr

/-- gobreaker request counters. -/
structure GBCounts where
  requests : Nat
  totalSuccesses : Nat
  totalFailures : Nat
  consecutiveSuccesses : Nat
  consecutiveFailures : Nat
  deriving DecidableEq, Repr

/-- An enabled breaker's observable state. -/
structure InnerBreaker where
  state : GBState
  counts : GBCounts
  deriving DecidableEq, Repr

/-- `CircuitBreaker`: `none` models a disabled breaker
(`cb.breaker == nil`), `some b` an enabled one. -/
abbrev CircuitBreaker := Option InnerBreaker

/-- The circuit-breaker `Manager`'s name-indexed breaker map. -/
abbrev CBManager := List (String × CircuitBreaker)

/-- Map lookup `m.breakers[name]` (first match). -/
def lookupBreaker : CBManager → String → Option CircuitBreaker
  | [], _ => none
  | (n, b) :: rest, name => if n = name then some b else lookupBreaker rest name

/-- `Manager.ResetBreaker`: error when the name is unknown; `nil` when the
breaker is disabled; for an enabled breaker it only logs
"Circuit breaker reset requested" and returns `nil` — the manager state is
unchanged in every case. -/
def resetBreaker (m : CBManager) (name : String) :
    Except String Unit × CBManager :=
  match lookupBreaker m name with
  | none => (Except.error ("circuit breaker not found: " ++ name), m)
  | some none => (Except.ok (), m)
  | some (some _) => (Except.ok (), m)

/-! ## Rate-limit key derivation (internal/middleware/chain.go, `RateLimit`) -/

/-- JWT claims as consumed by the rate-limit stage: only `UserID` is read. -/
structure Claims where
  userID : String
  deriving DecidableEq, Repr

/-- Key derivation in `Manager.RateLimit`: take `UserID` from the context's
claims when present, and fall back to the client IP when the resulting key
is the empty string. No namespace is prepended and no API-key header is
consulted. -/
def rateLimitKey (claims : Option Claims) (clientIP : String) : String :=
  let key := match claims with
    | some c => c.userID
    | none => ""
  if key = "" then clientIP else key

/-- Modelled from the spec: the key-derivation policy the spec mandates
(not present in the source): `identity:<subject>` when identity claims
are present, else `apikey:<hash>` when an API key header is present, else
`ip:<remote-address>`. -/
def specRateLimitKey (claims : Option Claims) (apiKeyHash : Option String)
    (clientIP : String) : String :=
  match claims with
  | some c => "identity:" ++ c.userID
  | none =>
    match apiKeyHash with
    | some h => "apikey:" ++ h
    | none => "ip:" ++ clientIP

/-! ## Distributed rate limiter (internal/ratelimit, `DistributedRateLimit`) -/

/-- The Lua script registered by `NewDistributedRateLimit`, as a pure
function on the key's score set (a list of millisecond scores).  Arguments
are `(window, limit, now)` as the script receives them.  It removes scores
in `(-inf, now - window * 1000]` (`zremrangebyscore`), reads the
cardinality, and if it is below the limit adds an entry with score `now`
and returns `(1, limit - current - 1)`, else returns `(0, 0)`. -/
def distScript (entries : List Int) (window limit now : Int) :
    (Int × Int) × List Int :=
  let kept := entries.filter (fun s => decide (now - window * 1000 < s))
  let current : Int := kept.length
  if current < limit then
    ((1, limit - current - 1), kept ++ [now])
  else
    ((0, 0), kept)

/-- `DistributedRateLimit.Allow`: converts the configured window to
milliseconds (`windowMs`), takes `now` in Unix milliseconds and runs the
script with arguments `(windowMs, limit, now)`; allowed iff the first
return value is 1. -/
def drlAllow (entries : List Int) (windowMs limit nowMs : Int) :
    Bool × List Int :=
  let r := distScript entries windowMs limit nowMs
  (r.1.1 = 1, r.2)

/-- Modelled from the spec: the trim the spec describes for the
distributed limiter — drop entries older than `now - W`, i.e. keep scores
in `(now_ms - window_ms, now_ms]`-range (the script's inclusive boundary
convention, but with the window counted once, not multiplied by 1000). -/
def specDistScript (entries : List Int) (window limit now : Int) :
    (Int × Int) × List Int :=
  let kept := entries.filter (fun s => decide (now - window < s))
  let current : Int := kept.length
  if current < limit then
    ((1, limit - current - 1), kept ++ [now])
  else
    ((0, 0), kept)

/-! ## Sliding-window-log rate limiter (internal/ratelimit, `SlidingWindow`) -/

/-- `SlidingWindow.Allow` acting on one key's timestamp log (times and the
window in the same integer time unit).  The head loop
(`for i < len && requests[i].Before(cutoff)`) drops the prefix of
timestamps strictly before `now - window`; the request is denied when the
remaining count has reached `limit`, and otherwise `now` is appended. -/
def swAllow (limit window : Int) (reqs : List Int) (now : Int) :
    Bool × List Int :=
  let trimmed := reqs.dropWhile (fun t => decide (t < now - window))
  if (trimmed.length : Int) ≥ limit then
    (false, trimmed)
  else
    (true, trimmed ++ [now])

/-- One step of a sliding-window trace: carry the stored log and the list
of access times that were allowed so far. -/
def swStep (limit window : Int) (st : List Int × List Int) (now : Int) :
    List Int × List Int :=
  let r := swAllow limit window st.1 now
  (r.2, if r.1 then st.2 ++ [now] else st.2)

/-- Process a whole sequence of accesses for one key, starting from the
empty log (`make([]time.Time, 0)` for a fresh key). -/
def swProcess (limit window : Int) (ts : List Int) : List Int × List Int :=
  ts.foldl (swStep limit window) ([], [])

/-- Invariant of the sliding-window log after an access at time `prev`:
the stored log is exactly the allowed access times within the trailing
window of `prev`, the allowed times are in access order, none is later
than `prev`, and the stored count never exceeds the limit. -/
def swInv (limit window prev : Int) (st : List Int × List Int) : Prop :=
  st.1 = st.2.filter (fun t => decide (prev - window ≤ t)) ∧
  st.2.Pairwise (· ≤ ·) ∧
  (∀ t ∈ st.2, t ≤ prev) ∧
  (st.1.length : Int) ≤ max limit 0

/-! ## Rate-limit middleware stage (internal/middleware/chain.go) -/

/-- A terminal middleware response: status code plus injected headers. -/
structure HttpResponse where
  status : Nat
  headers : List (String × String)
  deriving DecidableEq, Repr

/-- Outcome of the `RateLimit` middleware after `CheckLimit` returned
`(allowed, err)`: on error a 500; on denial a 429 with the three
hard-coded headers `X-RateLimit-Limit: 100`, `X-RateLimit-Remaining: 0`,
`Retry-After: 60`; otherwise `none` (the chain continues). -/
def rateLimitStage (allowed : Bool) (err : Bool) : Option HttpResponse :=
  if err then
    some ⟨500, []⟩
  else if !allowed then
    some ⟨429, [("X-RateLimit-Limit", "100"),
                ("X-RateLimit-Remaining", "0"),
                ("Retry-After", "60")]⟩
  else
    none

/-- Modelled from the spec: the 429 headers the spec mandates, reflecting
the applicable rule's limit, the remaining allowance and the limiter's
`reset_after` in seconds. -/
def specDeniedHeaders (limit remaining resetAfterSecs : Nat) :
    List (String × String) :=
  [("X-RateLimit-Limit", toString limit),
   ("X-RateLimit-Remaining", toString remaining),
   ("Retry-After", toString resetAfterSecs)]

/-! ## Configuration validation (internal/config, `Manager.validateConfig`) -/

/-- A rate-limit rule: request count, window and burst. -/
structure RLRule where
  requests : Int
  window : Int
  burst : Int
  deriving DecidableEq, Repr

/-- The rate-limit section of the configuration. -/
structure RLConfig where
  enabled : Bool
  algorithm : String
  defaultRule : RLRule
  deriving DecidableEq, Repr

/-- A service's circuit-breaker settings. -/
structure CBConfig where
  enabled : Bool
  failureThreshold : Int
  recoveryTimeout : Int
  halfOpenRequests : Int
  deriving DecidableEq, Repr

/-- A routed service: endpoint URLs, balancer policy and breaker. -/
structure SvcConfig where
  urls : List String
  loadBalancer : String
  retries : Int
  circuitBreaker : CBConfig
  deriving DecidableEq, Repr

/-- The configuration fields validation can see. -/
structure GwConfig where
  serverPort : Int
  jwtSecret : String
  rateLimit : RLConfig
  services : List (String × SvcConfig)
  deriving DecidableEq, Repr

/-- `Manager.validateConfig`: rejects a port outside `[1, 65535]`, an
empty JWT secret, and — only when rate limiting is enabled — a
non-positive default request count.  Nothing else is checked. -/
def validateConfig (c : GwConfig) : Except String Unit :=
  if c.serverPort ≤ 0 ∨ c.serverPort > 65535 then
    Except.error "invalid server port"
  else if c.jwtSecret = "" then
    Except.error "JWT secret is required"
  else if c.rateLimit.enabled ∧ c.rateLimit.defaultRule.requests ≤ 0 then
    Except.error "rate limit requests must be positive"
  else
    Except.ok ()

/-- `Manager.Load` after a successful read/unmarshal: validate, and only
on success replace the stored configuration (`m.config = &config`); the
previous configuration stays active on rejection. -/
def loadConfig (prev : Option GwConfig) (c : GwConfig) :
    Except String Unit × Option GwConfig :=
  match validateConfig c with
  | Except.error e => (Except.error ("config validation failed: " ++ e), prev)
  | Except.ok _ => (Except.ok (), some c)

/-! ## Rate-limit manager (internal/ratelimit/manager.go, `CheckLimit`) -/

/-- An algorithm instance registered in the manager's map, abstracted to
its `Allow` behaviour. -/
structure AlgImpl where
  allow : String → Bool × Option String

/-- The rate-limit `Manager`: the `Enabled` flag of its configuration and
the key-indexed algorithm map. -/
structure RLManager where
  enabled : Bool
  algorithms : List (String × AlgImpl)

/-- Map lookup `m.algorithms[key]` (first match). -/
def algLookup : List (String × AlgImpl) → String → Option AlgImpl
  | [], _ => none
  | (k, a) :: rest, key => if k = key then some a else algLookup rest key

/-- `Manager.CheckLimit`: allow immediately when rate limiting is
disabled; otherwise look the key up, fall back to the `"default"`
algorithm, and — when neither exists — log a warning and allow the
request (`return true, nil`). -/
def checkLimit (m : RLManager) (key : String) : Bool × Option String :=
  if m.enabled = false then
    (true, none)
  else
    match algLookup m.algorithms key with
    | some alg => alg.allow key
    | none =>
      match algLookup m.algorithms "default" with
      | some alg => alg.allow key
      | none => (true, none)

/-! ## Least-connections balancer (pkg/loadbalancer, `LeastConnections`) -/

/-- `ConnectionTarget`: URL, active-connection counter, health flag. -/
structure CTarget where
  url : String
  conns : Int
  healthy : Bool
  deriving DecidableEq, Repr

/-- `NewLeastConnections`: every target starts healthy with 0 connections. -/
def newLeastConnections (urls : List String) : List CTarget :=
  urls.map (fun u => ⟨u, 0, true⟩)

/-- The selection loop of `LeastConnections.NextTarget`: scan targets in
order, skip unhealthy ones, and keep the first one whose connection count
is strictly smaller than the current candidate's.  Returns the selected
index and target. -/
def lcPick (ts : List CTarget) : Option (Nat × CTarget) :=
  ts.enum.foldl
    (fun acc p =>
      if p.2.healthy = false then acc
      else
        match acc with
        | none => some p
        | some q => if p.2.conns < q.2.conns then some p else acc)
    none

/-- `LeastConnections.NextTarget`: pick per `lcPick`; on success increment
the selected target's connection counter and return its URL. -/
def lcNextTarget (ts : List CTarget) : Option String × List CTarget :=
  match lcPick ts with
  | none => (none, ts)
  | some (i, t) => (some t.url, ts.set i { t with conns := t.conns + 1 })

/-- `LeastConnections.MarkHealthy`: set the health flag of the first
target with a matching URL (the loop breaks after the first match). -/
def lcMarkHealthy : List CTarget → String → List CTarget
  | [], _ => []
  | t :: rest, u =>
    if t.url = u then { t with healthy := true } :: rest
    else t :: lcMarkHealthy rest u

/-- `LeastConnections.MarkUnhealthy`: clear the health flag of the first
target with a matching URL. -/
def lcMarkUnhealthy : List CTarget → String → List CTarget
  | [], _ => []
  | t :: rest, u =>
    if t.url = u then { t with healthy := false } :: rest
    else t :: lcMarkUnhealthy rest u

/-- `LeastConnections.IsHealthy`: health flag of the first target with a
matching URL, `false` when the URL is unknown. -/
def lcIsHealthy : List CTarget → String → Bool
  | [], _ => false
  | t :: rest, u => if t.url = u then t.healthy else lcIsHealthy rest u

/-- Connection counter of the first target with a matching URL. -/
def lcConns : List CTarget → String → Option Int
  | [], _ => none
  | t :: rest, u => if t.url = u then some t.conns else lcConns rest u

/-- States of a `LeastConnections` balancer reachable from
`NewLeastConnections(urls)` by `NextTarget`, `MarkHealthy` and
`MarkUnhealthy` calls. -/
inductive LCReach (urls : List String) : List CTarget → Prop where
  | init : LCReach urls (newLeastConnections urls)
  | next {s} : LCReach urls s → LCReach urls (lcNextTarget s).2
  | markH {s} (u : String) : LCReach urls s → LCReach urls (lcMarkHealthy s u)
  | markU {s} (u : String) : LCReach urls s → LCReach urls (lcMarkUnhealthy s u)

/-! ## Weighted round-robin balancer (pkg/loadbalancer, `WeightedRoundRobin`)

The slice of `WeightedTarget`s is embedded as the pair of its static
weights `w : Fin n → ℤ` and mutable current-weights `c : Fin n → ℤ`
(`NewWeightedRoundRobin` starts every `CurrentWeight` at 0). -/

/-- The selection loop of `WeightedRoundRobin.NextTarget` over the
post-increment current weights `v`: scan indices in order and replace the
candidate when a strictly greater current weight is found, so the first
maximum wins. -/
def wrrPick {n : ℕ} (v : Fin n → Int) : Option (Fin n) :=
  (List.finRange n).foldl
    (fun acc i =>
      match acc with
      | none => some i
      | some j => if v j < v i then some i else acc)
    none

/-- Total weight computed on each call (`totalWeight`). -/
def wrrTotal {n : ℕ} (w : Fin n → Int) : Int := ∑ i, w i

/-- One `WeightedRoundRobin.NextTarget` call: add every target's weight to
its current weight, pick the first maximum, and subtract the total weight
from the selected target's current weight. -/
def wrrStep {n : ℕ} (w c : Fin n → Int) : Option (Fin n) × (Fin n → Int) :=
  let d := fun i => c i + w i
  match wrrPick d with
  | none => (none, d)
  | some j => (some j, Function.update d j (d j - wrrTotal w))

/-- Current-weight state after `t` calls, starting from the all-zero
state of `NewWeightedRoundRobin`. -/
def wrrState {n : ℕ} (w : Fin n → Int) : ℕ → (Fin n → Int)
  | 0 => fun _ => 0
  | t + 1 => (wrrStep w (wrrState w t)).2

/-- The target selected by the `(t+1)`-th call. -/
def wrrSel {n : ℕ} (w : Fin n → Int) (t : ℕ) : Option (Fin n) :=
  (wrrStep w (wrrState w t)).1

/-- Number of times target `i` was selected during the first `t` calls. -/
def wrrCount {n : ℕ} (w : Fin n → Int) (i : Fin n) (t : ℕ) : Int :=
  ∑ u ∈ Finset.range t, if wrrSel w u = some i then 1 else 0

end Gateway

namespace Gateway

/-! ## C1: round-robin selection order -/

/-- C1 counterexample: over the two-endpoint list `["a", "b"]` the FIRST
`NextTarget` call returns `"b"`, not `"a"` as the claim states, because
`atomic.AddUint64` increments the counter before it is used as index. -/
theorem rr_first_call_counterexample :
    (rrNextTarget (newRoundRobin ["a", "b"])).1 = some "b" ∧
    (some "b" : Option String) ≠ some "a" := by
  refine ⟨rfl, by decide⟩

/-- C1 (amended): for a round-robin balancer over `[a, b]`, three
sequential `NextTarget` calls return `b`, then `a`, then `b`: the first
selection is the SECOND endpoint of the configured list (the counter is
incremented before indexing), and selections proceed in list order modulo
the list length from there. -/
theorem rr_three_calls (a b : String) :
    ((rrNextTarget (newRoundRobin [a, b])).1 = some b) ∧
    ((rrNextTarget (rrNextTarget (newRoundRobin [a, b])).2).1 = some a) ∧
    ((rrNextTarget (rrNextTarget (rrNextTarget (newRoundRobin [a, b])).2).2).1
      = some b) := by
  unfold rrNextTarget newRoundRobin
  norm_num

/-! ## C2: `Manager.ResetBreaker` is a no-op -/

/-- C2 (code bug): calling `ResetBreaker` on an enabled breaker that is
Open with 3 consecutive failures returns `nil`, yet leaves the manager —
hence the breaker's state and counters — completely unchanged: the state
is still Open and the counters still nonzero, contradicting the claim's
"state Closed, counters zeroed" as well as the function's own doc comment
("resets a circuit breaker to closed state"). -/
theorem resetBreaker_is_noop :
    (resetBreaker [("svc", some ⟨GBState.opened, ⟨3, 0, 3, 0, 3⟩⟩)] "svc").1
      = Except.ok () ∧
    (resetBreaker [("svc", some ⟨GBState.opened, ⟨3, 0, 3, 0, 3⟩⟩)] "svc").2
      = [("svc", some ⟨GBState.opened, ⟨3, 0, 3, 0, 3⟩⟩)] ∧
    GBState.opened ≠ GBState.closed ∧ (3 : Nat) ≠ 0 :=
  ⟨rfl, rfl, by decide, by decide⟩

/-! ## C3: rate-limit key derivation -/

/-- C3 counterexample: with identity claims for subject `"alice"` the code
derives the bare key `"alice"`, not the namespaced `"identity:alice"` the
claim requires (the spec-mandated policy is `specRateLimitKey`). -/
theorem rateLimitKey_counterexample :
    rateLimitKey (some ⟨"alice"⟩) "1.2.3.4" = "alice" ∧
    specRateLimitKey (some ⟨"alice"⟩) none "1.2.3.4" = "identity:alice" ∧
    rateLimitKey (some ⟨"alice"⟩) "1.2.3.4" ≠ "identity:alice" :=
  ⟨rfl, rfl, by decide⟩

/-- C3 (amended): the rate-limit key is the bare JWT `UserID` whenever
claims are present with a nonempty user id, and otherwise the bare client
IP; no `identity:`/`apikey:`/`ip:` namespaces exist and no API-key header
is ever consulted. -/
theorem rateLimitKey_amended (c : Claims) (ip : String) :
    (c.userID ≠ "" → rateLimitKey (some c) ip = c.userID) ∧
    (c.userID = "" → rateLimitKey (some c) ip = ip) ∧
    rateLimitKey none ip = ip := by
  refine ⟨fun h => ?_, fun h => ?_, rfl⟩
  · show (if c.userID = "" then ip else c.userID) = c.userID
    exact if_neg h
  · show (if c.userID = "" then ip else c.userID) = ip
    exact if_pos h

/-- C3 witness: the amended statement applied to claims for `"alice"`
from IP `1.2.3.4`. -/
theorem rateLimitKey_amended_witness :
    ("alice" : String) ≠ "" ∧
    rateLimitKey (some ⟨"alice"⟩) "1.2.3.4" = "alice" :=
  ⟨by decide, (rateLimitKey_amended ⟨"alice"⟩ "1.2.3.4").1 (by decide)⟩

/-! ## C4: distributed limiter trim window -/

/-- C4 (code bug): the script receives the window already in milliseconds
but multiplies it by 1000 again in the `zremrangebyscore` cutoff.  With a
1-second window (`window_ms = 1000`), limit 1, `now = 1000000` and one
stored entry of score 995000 — five seconds, i.e. five windows, old — the
claim's trim (`specDistScript`) would drop the entry and allow with
`(1, 0)`, but the code keeps it and denies with `(0, 0)`. -/
theorem distScript_trim_code_bug :
    drlAllow [995000] 1000 1 1000000 = (false, [995000]) ∧
    specDistScript [995000] 1000 1 1000000 = ((1, 0), [1000000]) ∧
    (995000 : Int) < 1000000 - 1000 := by
  refine ⟨by decide, by decide, by decide⟩

/-! ## C8: 429 response headers -/

/-- C8 (code bug): on denial the middleware does answer 429, but its
headers are hard-coded (`X-RateLimit-Limit: 100`, `Retry-After: 60` — the
source itself notes "This should come from config") instead of reflecting
the limiter's state: for a rule with limit 5 and `reset_after` 1 s the
spec-mandated headers (`specDeniedHeaders`) differ from what is sent. -/
theorem rateLimitStage_headers_code_bug :
    rateLimitStage false false =
      some ⟨429, [("X-RateLimit-Limit", "100"),
                  ("X-RateLimit-Remaining", "0"),
                  ("Retry-After", "60")]⟩ ∧
    specDeniedHeaders 5 0 1 =
      [("X-RateLimit-Limit", "5"),
       ("X-RateLimit-Remaining", "0"),
       ("Retry-After", "1")] ∧
    ("100" : String) ≠ "5" ∧ ("60" : String) ≠ "1" := by
  refine ⟨rfl, by decide, by decide, by decide⟩

/-! ## C9: configuration validation coverage -/

/-- C9 counterexample: a configuration whose default rate-limit rule has a
non-positive window, whose only service has zero endpoint URLs, and whose
enabled breaker has non-positive threshold and duration passes validation
and is installed by `Load` — the claim's "rejects every configuration that
violates any required validation" is false. -/
theorem validateConfig_counterexample :
    validateConfig
        ⟨8080, "secret", ⟨true, "token_bucket", ⟨100, 0, 10⟩⟩,
         [("u", ⟨[], "round_robin", 3, ⟨true, 0, 0, 1⟩⟩)]⟩
      = Except.ok () ∧
    (loadConfig none
        ⟨8080, "secret", ⟨true, "token_bucket", ⟨100, 0, 10⟩⟩,
         [("u", ⟨[], "round_robin", 3, ⟨true, 0, 0, 1⟩⟩)]⟩).2
      = some ⟨8080, "secret", ⟨true, "token_bucket", ⟨100, 0, 10⟩⟩,
             [("u", ⟨[], "round_robin", 3, ⟨true, 0, 0, 1⟩⟩)]⟩ ∧
    ((0 : Int) ≤ 0 ∧ ([] : List String).length = 0) :=
  ⟨rfl, rfl, by decide, rfl⟩

/-- C9 (amended): `validateConfig` accepts a configuration exactly when
the server port is in `[1, 65535]`, the JWT secret is nonempty, and, when
rate limiting is enabled, the default rule's request count is positive —
window positivity, service endpoint lists and breaker settings are never
checked — and `Load` keeps the previously loaded configuration exactly
when validation rejects. -/
theorem validateConfig_amended (prev : Option GwConfig) (c : GwConfig) :
    (validateConfig c = Except.ok () ↔
      (0 < c.serverPort ∧ c.serverPort ≤ 65535 ∧ c.jwtSecret ≠ "" ∧
        (c.rateLimit.enabled = true → 0 < c.rateLimit.defaultRule.requests))) ∧
    (loadConfig prev c).2 =
      (match validateConfig c with
       | Except.ok _ => some c
       | Except.error _ => prev) := by
  constructor
  · unfold validateConfig
    split_ifs with h1 h2 h3
    · simp only [false_iff]
      intro ⟨p1, p2, _, _⟩
      rcases h1 with h | h
      · omega
      · omega
    · simp only [false_iff]
      intro ⟨_, _, ps, _⟩
      exact ps h2
    · simp only [false_iff]
      intro ⟨_, _, _, pr⟩
      rcases h3 with ⟨he, hr⟩
      have := pr he
      omega
    · simp only [true_iff]
      push_neg at h1 h3
      refine ⟨h1.1, h1.2, h2, fun he => ?_⟩
      have := h3 he
      omega
  · unfold loadConfig
    cases validateConfig c <;> rfl

/-- C9 witness: the amended statement applied to a rejected configuration
(port 8080 but empty secret) with a previously loaded configuration that
must stay active. -/
theorem validateConfig_amended_witness :
    validateConfig ⟨8080, "", ⟨false, "token_bucket", ⟨100, 60, 10⟩⟩, []⟩
      ≠ Except.ok () ∧
    (loadConfig
        (some ⟨9090, "old", ⟨false, "token_bucket", ⟨100, 60, 10⟩⟩, []⟩)
        ⟨8080, "", ⟨false, "token_bucket", ⟨100, 60, 10⟩⟩, []⟩).2
      = some ⟨9090, "old", ⟨false, "token_bucket", ⟨100, 60, 10⟩⟩, []⟩ := by
  have h := validateConfig_amended
    (some ⟨9090, "old", ⟨false, "token_bucket", ⟨100, 60, 10⟩⟩, []⟩)
    ⟨8080, "", ⟨false, "token_bucket", ⟨100, 60, 10⟩⟩, []⟩
  constructor
  · intro hc
    have := h.1.mp hc
    exact this.2.2.1 rfl
  · rw [h.2]
    rfl

/-! ## C10: `CheckLimit` fails open -/

/-- C10: `Manager.CheckLimit` fails open: it returns `(true, nil)` both
when rate limiting is disabled in the configuration and when neither the
key nor `"default"` has a registered algorithm instance, instead of
denying or erroring. -/
theorem checkLimit_fails_open (m : RLManager) (key : String) :
    (m.enabled = false → checkLimit m key = (true, none)) ∧
    (algLookup m.algorithms key = none →
      algLookup m.algorithms "default" = none →
      checkLimit m key = (true, none)) := by
  constructor
  · intro h
    unfold checkLimit
    simp [h]
  · intro h1 h2
    unfold checkLimit
    rw [h1, h2]
    split <;> rfl

/-- C10 witness: a disabled manager and an enabled manager with an empty
algorithm map both allow an arbitrary key. -/
theorem checkLimit_fails_open_witness :
    checkLimit ⟨false, []⟩ "ip:1.2.3.4" = (true, none) ∧
    checkLimit ⟨true, []⟩ "ip:1.2.3.4" = (true, none) :=
  ⟨(checkLimit_fails_open ⟨false, []⟩ "ip:1.2.3.4").1 rfl,
   (checkLimit_fails_open ⟨true, []⟩ "ip:1.2.3.4").2 rfl rfl⟩

/-! ## C7: least-connections health exclusion -/

theorem lcPick_foldl_spec (ts : List CTarget) (l : List (ℕ × CTarget))
    (hl : ∀ p ∈ l, ts.get? p.1 = some p.2) (acc : Option (ℕ × CTarget))
    (hacc : ∀ q, acc = some q → q.2.healthy = true ∧ ts.get? q.1 = some q.2) :
    ∀ q, (l.foldl
        (fun acc p =>
          if p.2.healthy = false then acc
          else
            match acc with
            | none => some p
            | some q => if p.2.conns < q.2.conns then some p else acc)
        acc) = some q →
      q.2.healthy = true ∧ ts.get? q.1 = some q.2 := by
  induction l generalizing acc with
  | nil => exact hacc
  | cons p rest ih =>
    intro q hq
    refine ih (fun r hr => hl r (List.mem_cons_of_mem _ hr)) _ ?_ q hq
    intro r hr
    simp only at hr
    by_cases hh : p.2.healthy = false
    · rw [if_pos hh] at hr
      exact hacc r hr
    · rw [if_neg hh] at hr
      have hp2 : p.2.healthy = true := by
        cases h : p.2.healthy
        · exact absurd h hh
        · rfl
      cases hac : acc with
      | none =>
        rw [hac] at hr
        simp only at hr
        cases hr
        exact ⟨hp2, hl p (List.mem_cons_self _ _)⟩
      | some s =>
        rw [hac] at hr
        simp only at hr
        by_cases hc : p.2.conns < s.2.conns
        · rw [if_pos hc] at hr
          cases hr
          exact ⟨hp2, hl p (List.mem_cons_self _ _)⟩
        · rw [if_neg hc] at hr
          cases hr
          exact hacc _ hac

theorem lcPick_spec (ts : List CTarget) (i : ℕ) (t : CTarget)
    (h : lcPick ts = some (i, t)) :
    t.healthy = true ∧ ts.get? i = some t := by
  have := lcPick_foldl_spec ts ts.enum
    (fun p hp => List.mem_enum_iff_get?.mp hp) none (by intro q hq; cases hq)
    (i, t) h
  exact this

theorem lc_set_map_url (ts : List CTarget) (i : ℕ) (t t' : CTarget)
    (hget : ts.get? i = some t) (hurl : t'.url = t.url) :
    (ts.set i t').map CTarget.url = ts.map CTarget.url := by
  induction ts generalizing i with
  | nil => rfl
  | cons a rest ih =>
    cases i with
    | zero =>
      cases hget
      simp [List.set, hurl]
    | succ n =>
      simp only [List.set, List.map_cons]
      rw [ih n hget]

theorem lcNextTarget_map_url (ts : List CTarget) :
    (lcNextTarget ts).2.map CTarget.url = ts.map CTarget.url := by
  unfold lcNextTarget
  cases h : lcPick ts with
  | none => rfl
  | some p =>
    obtain ⟨i, t⟩ := p
    have := lcPick_spec ts i t h
    exact lc_set_map_url ts i t _ this.2 rfl

theorem lcMarkHealthy_map_url (ts : List CTarget) (u : String) :
    (lcMarkHealthy ts u).map CTarget.url = ts.map CTarget.url := by
  induction ts with
  | nil => rfl
  | cons a rest ih =>
    unfold lcMarkHealthy
    by_cases h : a.url = u
    · simp [h]
    · simp only [if_neg h, List.map_cons, ih]

theorem lcMarkUnhealthy_map_url (ts : List CTarget) (u : String) :
    (lcMarkUnhealthy ts u).map CTarget.url = ts.map CTarget.url := by
  induction ts with
  | nil => rfl
  | cons a rest ih =>
    unfold lcMarkUnhealthy
    by_cases h : a.url = u
    · simp [h]
    · simp only [if_neg h, List.map_cons, ih]

theorem lcReach_map_url (urls : List String) (s : List CTarget)
    (hs : LCReach urls s) : s.map CTarget.url = urls := by
  induction hs with
  | init =>
    unfold newLeastConnections
    rw [List.map_map]
    exact List.map_id urls
  | next _ ih => rw [lcNextTarget_map_url]; exact ih
  | markH u _ ih => rw [lcMarkHealthy_map_url]; exact ih
  | markU u _ ih => rw [lcMarkUnhealthy_map_url]; exact ih

theorem lcConns_set_other (ts : List CTarget) (i : ℕ) (t t' : CTarget)
    (hget : ts.get? i = some t) (hurl : t'.url = t.url) (u : String)
    (hne : t.url ≠ u) :
    lcConns (ts.set i t') u = lcConns ts u := by
  induction ts generalizing i with
  | nil => rfl
  | cons a rest ih =>
    cases i with
    | zero =>
      cases hget
      unfold lcConns
      simp only [List.set]
      rw [if_neg (hurl ▸ hne), if_neg hne]
    | succ n =>
      unfold lcConns
      simp only [List.set]
      by_cases h : a.url = u
      · rw [if_pos h, if_pos h]
      · rw [if_neg h, if_neg h]
        exact ih n hget

theorem lcIsHealthy_markHealthy (ts : List CTarget) (u : String)
    (hu : u ∈ ts.map CTarget.url) :
    lcIsHealthy (lcMarkHealthy ts u) u = true := by
  induction ts with
  | nil => cases hu
  | cons a rest ih =>
    unfold lcMarkHealthy
    by_cases h : a.url = u
    · unfold lcIsHealthy
      rw [if_pos h]
      simp [h]
    · rw [if_neg h]
      unfold lcIsHealthy
      rw [if_neg h]
      refine ih ?_
      rcases List.mem_map.mp hu with ⟨b, hb, hbu⟩
      rcases List.mem_cons.mp hb with hba | hbr
      · exact absurd (hba ▸ hbu) h
      · exact List.mem_map.mpr ⟨b, hbr, hbu⟩

/-- C7: in every state of a `LeastConnections` balancer reachable from
`NewLeastConnections(urls)` (distinct URLs) by `NextTarget`, `MarkHealthy`
and `MarkUnhealthy` calls, an unhealthy endpoint is never returned by
`NextTarget` and its connection counter is never incremented by it, and
immediately after `MarkHealthy` the endpoint's health flag is set, making
it eligible for selection again. -/
theorem leastConnections_health_exclusion (urls : List String)
    (hnd : urls.Nodup) (s : List CTarget) (hs : LCReach urls s)
    (t : CTarget) (ht : t ∈ s) (hun : t.healthy = false) :
    (lcNextTarget s).1 ≠ some t.url ∧
    lcConns (lcNextTarget s).2 t.url = lcConns s t.url ∧
    lcIsHealthy (lcMarkHealthy s t.url) t.url = true := by
  have hmap : s.map CTarget.url = urls := lcReach_map_url urls s hs
  have hnds : (s.map CTarget.url).Nodup := hmap ▸ hnd
  have hmem : t.url ∈ s.map CTarget.url := List.mem_map.mpr ⟨t, ht, rfl⟩
  refine ⟨?_, ?_, lcIsHealthy_markHealthy s t.url hmem⟩
  · unfold lcNextTarget
    cases h : lcPick s with
    | none => simp
    | some p =>
      obtain ⟨i, tp⟩ := p
      obtain ⟨hh, hget⟩ := lcPick_spec s i tp h
      simp only
      intro hc
      have heq : tp.url = t.url := by
        injection hc
      have htp : tp ∈ s := List.get?_mem hget
      have : tp = t := List.inj_on_of_nodup_map hnds htp ht heq
      rw [this] at hh
      rw [hun] at hh
      cases hh
  · unfold lcNextTarget
    cases h : lcPick s with
    | none => rfl
    | some p =>
      obtain ⟨i, tp⟩ := p
      obtain ⟨hh, hget⟩ := lcPick_spec s i tp h
      simp only
      have hne : tp.url ≠ t.url := by
        intro heq
        have htp : tp ∈ s := List.get?_mem hget
        have : tp = t := List.inj_on_of_nodup_map hnds htp ht heq
        rw [this, hun] at hh
        cases hh
      exact lcConns_set_other s i tp { tp with conns := tp.conns + 1 }
        hget rfl t.url hne

/-- C7 witness: two endpoints `a`, `b`; after marking `b` unhealthy from
the initial state, `NextTarget` does not return `b`, `b`'s counter is
untouched, and `MarkHealthy` makes `b` eligible again. -/
theorem leastConnections_health_exclusion_witness :
    (["a", "b"] : List String).Nodup ∧
    (lcNextTarget (lcMarkUnhealthy (newLeastConnections ["a", "b"]) "b")).1
      ≠ some "b" := by
  have h := leastConnections_health_exclusion ["a", "b"] (by decide)
    (lcMarkUnhealthy (newLeastConnections ["a", "b"]) "b")
    (LCReach.markU "b" LCReach.init) ⟨"b", 0, false⟩ (by decide) rfl
  exact ⟨by decide, h.1⟩

/-! ## C5: sliding-window-log exactness -/

theorem dropWhile_lt_eq_filter_le (c : Int) (l : List Int)
    (hl : l.Pairwise (· ≤ ·)) :
    l.dropWhile (fun t => decide (t < c)) = l.filter (fun t => decide (c ≤ t)) := by
  induction l with
  | nil => rfl
  | cons a l ih =>
    rw [List.pairwise_cons] at hl
    by_cases ha : a < c
    · rw [List.dropWhile_cons]
      simp only [decide_eq_true_eq, if_pos ha]
      rw [List.filter_cons]
      have : ¬ c ≤ a := not_le.mpr ha
      simp only [decide_eq_true_eq, this, if_false]
      exact ih hl.2
    · rw [List.dropWhile_cons]
      simp only [decide_eq_true_eq, if_neg ha]
      rw [List.filter_cons]
      have hca : c ≤ a := not_lt.mp ha
      simp only [decide_eq_true_eq, hca, if_true]
      congr 1
      symm
      refine List.filter_eq_self.mpr ?_
      intro b hb
      exact decide_eq_true (le_trans hca (hl.1 b hb))

theorem swStep_preserves_inv (limit window prev now : Int) (hw : 0 ≤ window)
    (hpn : prev ≤ now) (st : List Int × List Int)
    (hinv : swInv limit window prev st) :
    swInv limit window now (swStep limit window st now) := by
  obtain ⟨hst, hsort, hle, hlen⟩ := hinv
  have hsort1 : st.1.Pairwise (· ≤ ·) := hst ▸ hsort.filter _
  have htrim : st.1.dropWhile (fun t => decide (t < now - window)) =
      st.2.filter (fun t => decide (now - window ≤ t)) := by
    rw [dropWhile_lt_eq_filter_le _ _ hsort1, hst, List.filter_filter]
    refine List.filter_congr ?_
    intro a _
    by_cases h : now - window ≤ a
    · have h2 : prev - window ≤ a := le_trans (by omega) h
      simp [h, h2]
    · simp [h]
  have hbody : swStep limit window st now =
      (if ((st.2.filter (fun t => decide (now - window ≤ t))).length : Int)
          ≥ limit then
        (st.2.filter (fun t => decide (now - window ≤ t)), st.2)
      else
        (st.2.filter (fun t => decide (now - window ≤ t)) ++ [now],
         st.2 ++ [now])) := by
    unfold swStep swAllow
    rw [htrim]
    by_cases hge :
        ((st.2.filter (fun t => decide (now - window ≤ t))).length : Int) ≥ limit
    · rw [if_pos hge, if_pos hge]
      rfl
    · rw [if_neg hge, if_neg hge]
      rfl
  rw [hbody]
  by_cases hge :
      ((st.2.filter (fun t => decide (now - window ≤ t))).length : Int) ≥ limit
  · rw [if_pos hge]
    refine ⟨rfl, hsort, fun t htm => le_trans (hle t htm) hpn, ?_⟩
    show ((st.2.filter (fun t => decide (now - window ≤ t))).length : Int)
      ≤ max limit 0
    calc ((st.2.filter (fun t => decide (now - window ≤ t))).length : Int)
        ≤ (st.1.length : Int) := by
          rw [← htrim]
          exact_mod_cast List.Sublist.length_le (List.dropWhile_sublist _)
      _ ≤ max limit 0 := hlen
  · rw [if_neg hge]
    push_neg at hge
    refine ⟨?_, ?_, ?_, ?_⟩
    · show st.2.filter (fun t => decide (now - window ≤ t)) ++ [now] =
        (st.2 ++ [now]).filter (fun t => decide (now - window ≤ t))
      rw [List.filter_append, List.filter_cons, List.filter_nil]
      have h : now - window ≤ now := by omega
      simp only [decide_eq_true_eq, h, if_true]
    · show (st.2 ++ [now]).Pairwise (· ≤ ·)
      rw [List.pairwise_append]
      refine ⟨hsort, List.pairwise_singleton _ _, ?_⟩
      intro a ha b hb
      rw [List.mem_singleton] at hb
      exact hb ▸ le_trans (hle a ha) hpn
    · show ∀ t ∈ st.2 ++ [now], t ≤ now
      intro t htm
      rcases List.mem_append.mp htm with h | h
      · exact le_trans (hle t h) hpn
      · rw [List.mem_singleton] at h
        exact le_of_eq h
    · show (((st.2.filter (fun t => decide (now - window ≤ t)) ++ [now]).length :
          Int)) ≤ max limit 0
      rw [List.length_append, List.length_singleton]
      push_cast
      omega

theorem swFoldl_inv (limit window : Int) (hw : 0 ≤ window) :
    ∀ (ts : List Int) (prev : Int) (st : List Int × List Int),
      (prev :: ts).Pairwise (· ≤ ·) → swInv limit window prev st →
      swInv limit window (ts.foldl (fun _ x => x) prev)
        (ts.foldl (swStep limit window) st) := by
  intro ts
  induction ts with
  | nil => exact fun prev st _ h => h
  | cons a ts ih =>
    intro prev st hp hinv
    rw [List.pairwise_cons] at hp
    have hpa : prev ≤ a := hp.1 a (List.mem_cons_self _ _)
    simp only [List.foldl_cons]
    exact ih a (swStep limit window st a) hp.2
      (swStep_preserves_inv limit window prev a hw hpa st hinv)

/-- C5: for the sliding-window-log limiter with window `W ≥ 0` and limit
`L`, every `Allow` call on a nondecreasing log first drops exactly the
stored timestamps older than `now - W`, returns allowed iff the remaining
count is strictly below `L`, and appends `now` exactly when it allows;
consequently, for any nondecreasing access trace ending at `now`, the
stored log after processing equals the allowed access times within the
trailing window of `now` — so the stored count equals the number of allows
in the last `W` and never exceeds `L`. -/
theorem slidingWindow_exactness (limit window : Int) (hw : 0 ≤ window) :
    (∀ (reqs : List Int) (now : Int), reqs.Pairwise (· ≤ ·) →
      swAllow limit window reqs now =
        (if ((reqs.filter (fun t => decide (now - window ≤ t))).length : Int)
            ≥ limit then
          (false, reqs.filter (fun t => decide (now - window ≤ t)))
        else
          (true, reqs.filter (fun t => decide (now - window ≤ t)) ++ [now]))) ∧
    (∀ (ts : List Int) (now : Int), (ts ++ [now]).Pairwise (· ≤ ·) →
      (swProcess limit window (ts ++ [now])).1 =
        (swProcess limit window (ts ++ [now])).2.filter
          (fun t => decide (now - window ≤ t)) ∧
      ((swProcess limit window (ts ++ [now])).1.length : Int) ≤ max limit 0) := by
  constructor
  · intro reqs now hsorted
    unfold swAllow
    rw [dropWhile_lt_eq_filter_le _ _ hsorted]
  · intro ts now hsorted
    have hne : ts ++ [now] ≠ [] := by simp
    obtain ⟨a, rest, hcons⟩ := List.exists_cons_of_ne_nil hne
    have hsc : (a :: a :: rest).Pairwise (· ≤ ·) := by
      rw [hcons] at hsorted
      rw [List.pairwise_cons]
      refine ⟨?_, hsorted⟩
      intro b hb
      rcases List.mem_cons.mp hb with h | h
      · exact le_of_eq h.symm
      · exact (List.pairwise_cons.mp hsorted).1 b h
    have hinv0 : swInv limit window a ([], []) := by
      refine ⟨rfl, List.Pairwise.nil, fun t ht => absurd ht (List.not_mem_nil t), ?_⟩
      simp only [List.length_nil, Int.ofNat_zero, le_max_iff]
      right
      exact le_refl 0
    have h := swFoldl_inv limit window hw (a :: rest) a ([], []) hsc hinv0
    have hlast : (a :: rest).foldl (fun _ x => x) a = now := by
      have : (ts ++ [now]).foldl (fun (_ x : Int) => x) a = now := by
        rw [List.foldl_append]
        rfl
      rw [hcons] at this
      exact this
    rw [hlast] at h
    have hproc : swProcess limit window (ts ++ [now]) =
        (a :: rest).foldl (swStep limit window) ([], []) := by
      rw [hcons]
      rfl
    rw [hproc]
    exact ⟨h.1, h.2.2.2⟩

/-- C5 witness: limit 2, window 10, accesses at times 0, 1, 2: the per-call
characterisation at the third access and the trace invariant after it
(stored log `[0, 1]`, third access denied, count 2 ≤ limit). -/
theorem slidingWindow_exactness_witness :
    ((0 : Int) ≤ 10 ∧ ([0, 1] : List Int).Pairwise (· ≤ ·) ∧
      (([0, 1] : List Int) ++ [2]).Pairwise (· ≤ ·)) ∧
    swAllow 2 10 [0, 1] 2 =
      (if ((([0, 1] : List Int).filter (fun t => decide (2 - 10 ≤ t))).length : Int)
          ≥ 2 then
        (false, ([0, 1] : List Int).filter (fun t => decide (2 - 10 ≤ t)))
      else
        (true, ([0, 1] : List Int).filter (fun t => decide (2 - 10 ≤ t)) ++ [2])) ∧
    (swProcess 2 10 ([0, 1] ++ [2])).1 =
      (swProcess 2 10 ([0, 1] ++ [2])).2.filter (fun t => decide (2 - 10 ≤ t)) ∧
    ((swProcess 2 10 ([0, 1] ++ [2])).1.length : Int) ≤ max 2 0 := by
  refine ⟨⟨by decide, by decide, by decide⟩, ?_, ?_, ?_⟩
  · exact (slidingWindow_exactness 2 10 (by decide)).1 [0, 1] 2 (by decide)
  · exact ((slidingWindow_exactness 2 10 (by decide)).2 [0, 1] 2 (by decide)).1
  · exact ((slidingWindow_exactness 2 10 (by decide)).2 [0, 1] 2 (by decide)).2

/-! ## C6: smooth weighted-round-robin fairness -/

theorem wrrPick_foldl_spec {n : ℕ} (v : Fin n → Int) (l : List (Fin n)) :
    ∀ j0 : Fin n, ∃ j : Fin n,
      (l.foldl
        (fun acc i =>
          match acc with
          | none => some i
          | some j => if v j < v i then some i else acc)
        (some j0)) = some j ∧ v j0 ≤ v j ∧ ∀ k ∈ l, v k ≤ v j := by
  induction l with
  | nil =>
    intro j0
    exact ⟨j0, rfl, le_refl _, fun k hk => absurd hk (List.not_mem_nil k)⟩
  | cons i l ih =>
    intro j0
    rw [List.foldl_cons]
    by_cases hvi : v j0 < v i
    · obtain ⟨j, hj, hij, hall⟩ := ih i
      refine ⟨j, ?_, le_trans (le_of_lt hvi) hij, ?_⟩
      · simpa [if_pos hvi] using hj
      · intro k hk
        rcases List.mem_cons.mp hk with h | h
        · exact h ▸ hij
        · exact hall k h
    · obtain ⟨j, hj, hij, hall⟩ := ih j0
      refine ⟨j, ?_, hij, ?_⟩
      · simpa [if_neg hvi] using hj
      · intro k hk
        rcases List.mem_cons.mp hk with h | h
        · exact h ▸ le_trans (not_lt.mp hvi) hij
        · exact hall k h

theorem wrrPick_spec {n : ℕ} (hn : 0 < n) (v : Fin n → Int) :
    ∃ j : Fin n, wrrPick v = some j ∧ ∀ k, v k ≤ v j := by
  have hne : (List.finRange n) ≠ [] := by
    intro h
    have := List.length_finRange n
    rw [h] at this
    simp at this
    omega
  obtain ⟨a, l, hcons⟩ := List.exists_cons_of_ne_nil hne
  have hfold : wrrPick v = l.foldl
      (fun acc i =>
        match acc with
        | none => some i
        | some j => if v j < v i then some i else acc)
      (some a) := by
    unfold wrrPick
    rw [hcons, List.foldl_cons]
  obtain ⟨j, hj, hija, hall⟩ := wrrPick_foldl_spec v l a
  refine ⟨j, by rw [hfold]; exact hj, ?_⟩
  intro k
  have hk : k ∈ List.finRange n := List.mem_finRange k
  rw [hcons] at hk
  rcases List.mem_cons.mp hk with h | h
  · rw [h]
    exact hija
  · exact hall k h

theorem wrrStep_spec {n : ℕ} (hn : 0 < n) (w c : Fin n → Int) :
    ∃ j : Fin n,
      wrrStep w c =
        (some j, fun i => c i + w i - if i = j then wrrTotal w else 0) ∧
      ∀ k, c k + w k ≤ c j + w j := by
  obtain ⟨j, hpick, hmax⟩ := wrrPick_spec hn (fun i => c i + w i)
  refine ⟨j, ?_, hmax⟩
  unfold wrrStep
  simp only [hpick]
  refine congrArg (Prod.mk (some j)) ?_
  funext i
  by_cases h : i = j
  · subst h
    rw [Function.update_same, if_pos rfl]
  · rw [Function.update_noteq h, if_neg h]
    ring

theorem wrrSel_isSome {n : ℕ} (hn : 0 < n) (w : Fin n → Int) (t : ℕ) :
    ∃ j : Fin n, wrrSel w t = some j := by
  obtain ⟨j, hj, _⟩ := wrrStep_spec hn w (wrrState w t)
  exact ⟨j, by unfold wrrSel; rw [hj]⟩

theorem wrrState_succ {n : ℕ} (hn : 0 < n) (w : Fin n → Int) (t : ℕ) :
    ∃ j : Fin n, wrrSel w t = some j ∧
      (∀ i, wrrState w (t + 1) i =
        wrrState w t i + w i - if i = j then wrrTotal w else 0) ∧
      (∀ k, wrrState w t k + w k ≤ wrrState w t j + w j) := by
  obtain ⟨j, hj, hmax⟩ := wrrStep_spec hn w (wrrState w t)
  refine ⟨j, by unfold wrrSel; rw [hj], ?_, hmax⟩
  intro i
  show (wrrStep w (wrrState w t)).2 i = _
  rw [hj]

theorem wrrCount_succ {n : ℕ} (w : Fin n → Int) (i : Fin n) (t : ℕ) :
    wrrCount w i (t + 1) =
      wrrCount w i t + if wrrSel w t = some i then 1 else 0 := by
  unfold wrrCount
  exact Finset.sum_range_succ _ t

theorem wrrState_formula {n : ℕ} (hn : 0 < n) (w : Fin n → Int) (t : ℕ)
    (i : Fin n) :
    wrrState w t i = t * w i - wrrCount w i t * wrrTotal w := by
  induction t with
  | zero =>
    show (0 : Int) = 0 * w i - wrrCount w i 0 * wrrTotal w
    unfold wrrCount
    simp
  | succ t ih =>
    obtain ⟨j, hsel, hstep, _⟩ := wrrState_succ hn w t
    rw [hstep i, wrrCount_succ, ih, hsel]
    by_cases h : i = j
    · have hsome : (some j = some i) := by rw [h]
      rw [if_pos hsome, if_pos h]
      push_cast
      ring
    · have hne : ¬ (some j = some i) := by
        intro hc
        exact h (Option.some.inj hc).symm
      rw [if_neg hne, if_neg h]
      push_cast
      ring

theorem wrrSel_sum_one {n : ℕ} (hn : 0 < n) (w : Fin n → Int) (u : ℕ) :
    (∑ i : Fin n, if wrrSel w u = some i then (1 : Int) else 0) = 1 := by
  obtain ⟨j, hj⟩ := wrrSel_isSome hn w u
  have : ∀ i : Fin n,
      (if wrrSel w u = some i then (1 : Int) else 0) =
      (if j = i then (1 : Int) else 0) := by
    intro i
    rw [hj]
    by_cases h : j = i
    · rw [if_pos (by rw [h]), if_pos h]
    · rw [if_neg (fun hc => h (Option.some.inj hc)), if_neg h]
  rw [Finset.sum_congr rfl (fun i _ => this i)]
  rw [Finset.sum_ite_eq]
  simp

theorem wrrCount_total {n : ℕ} (hn : 0 < n) (w : Fin n → Int) (t : ℕ) :
    (∑ i : Fin n, wrrCount w i t) = t := by
  unfold wrrCount
  rw [Finset.sum_comm]
  rw [Finset.sum_congr rfl (fun u _ => wrrSel_sum_one hn w u)]
  simp

theorem wrrTotal_pos {n : ℕ} (hn : 0 < n) (w : Fin n → Int)
    (hw : ∀ i, 1 ≤ w i) : 0 < wrrTotal w := by
  have h1 : ((n : Int)) ≤ wrrTotal w := by
    have : (∑ _i : Fin n, (1 : Int)) ≤ ∑ i, w i :=
      Finset.sum_le_sum (fun i _ => hw i)
    simpa using this
  have h2 : (0 : Int) < n := by exact_mod_cast hn
  calc (0 : Int) < n := h2
    _ ≤ wrrTotal w := h1

theorem wrrState_sum_zero {n : ℕ} (hn : 0 < n) (w : Fin n → Int) (t : ℕ) :
    (∑ i : Fin n, wrrState w t i) = 0 := by
  rw [Finset.sum_congr rfl (fun i _ => wrrState_formula hn w t i)]
  rw [Finset.sum_sub_distrib, ← Finset.sum_mul, wrrCount_total hn w t]
  rw [← Finset.mul_sum]
  unfold wrrTotal
  ring

theorem wrrState_lb {n : ℕ} (hn : 0 < n) (w : Fin n → Int)
    (hw : ∀ i, 1 ≤ w i) (t : ℕ) (i : Fin n) :
    -(wrrTotal w) < wrrState w t i := by
  induction t generalizing i with
  | zero =>
    show -(wrrTotal w) < 0
    have := wrrTotal_pos hn w hw
    omega
  | succ t ih =>
    obtain ⟨j, _, hstep, hmax⟩ := wrrState_succ hn w t
    have hdpos : 0 < wrrState w t j + w j := by
      by_contra hnp
      push_neg at hnp
      have hall : ∀ k : Fin n, wrrState w t k + w k ≤ 0 :=
        fun k => le_trans (hmax k) hnp
      have hsum : (∑ k : Fin n, (wrrState w t k + w k)) ≤ 0 :=
        Finset.sum_nonpos (fun k _ => hall k)
      rw [Finset.sum_add_distrib, wrrState_sum_zero hn w t, zero_add] at hsum
      have := wrrTotal_pos hn w hw
      unfold wrrTotal at this
      omega
    rw [hstep i]
    by_cases h : i = j
    · rw [if_pos h, h]
      omega
    · rw [if_neg h]
      have h1 := ih i
      have h2 := hw i
      omega

theorem wrrCount_nonneg {n : ℕ} (w : Fin n → Int) (i : Fin n) (t : ℕ) :
    0 ≤ wrrCount w i t := by
  unfold wrrCount
  refine Finset.sum_nonneg ?_
  intro u _
  by_cases h : wrrSel w u = some i
  · rw [if_pos h]
    omega
  · rw [if_neg h]

theorem wrrCount_cycle {n : ℕ} (hn : 0 < n) (w : Fin n → Int)
    (hw : ∀ i, 1 ≤ w i) (i : Fin n) :
    wrrCount w i (wrrTotal w).toNat = w i := by
  have hS : 0 < wrrTotal w := wrrTotal_pos hn w hw
  have hSn : ((wrrTotal w).toNat : Int) = wrrTotal w :=
    Int.toNat_of_nonneg (le_of_lt hS)
  have hub : ∀ k : Fin n, wrrCount w k (wrrTotal w).toNat ≤ w k := by
    intro k
    by_contra hc
    push_neg at hc
    have hlb := wrrState_lb hn w hw (wrrTotal w).toNat k
    rw [wrrState_formula hn w _ k, hSn] at hlb
    have h1 : w k + 1 ≤ wrrCount w k (wrrTotal w).toNat := hc
    have h2 : (w k + 1) * wrrTotal w ≤
        wrrCount w k (wrrTotal w).toNat * wrrTotal w :=
      mul_le_mul_of_nonneg_right h1 (le_of_lt hS)
    nlinarith
  have hsum : (∑ k : Fin n, wrrCount w k (wrrTotal w).toNat) =
      ∑ k : Fin n, w k := by
    rw [wrrCount_total hn w]
    rw [hSn]
    rfl
  exact (Finset.sum_eq_sum_iff_of_le (fun k _ => hub k)).mp hsum i
    (Finset.mem_univ i)

theorem wrrState_cycle {n : ℕ} (hn : 0 < n) (w : Fin n → Int)
    (hw : ∀ i, 1 ≤ w i) :
    wrrState w (wrrTotal w).toNat = wrrState w 0 := by
  funext i
  rw [wrrState_formula hn w _ i, wrrCount_cycle hn w hw i]
  have hSn : ((wrrTotal w).toNat : Int) = wrrTotal w :=
    Int.toNat_of_nonneg (le_of_lt (wrrTotal_pos hn w hw))
  rw [hSn]
  have h0 : wrrState w 0 i = 0 := rfl
  rw [h0]
  ring

theorem wrrState_periodic {n : ℕ} (hn : 0 < n) (w : Fin n → Int)
    (hw : ∀ i, 1 ≤ w i) (t : ℕ) :
    wrrState w (t + (wrrTotal w).toNat) = wrrState w t := by
  induction t with
  | zero =>
    rw [Nat.zero_add]
    exact wrrState_cycle hn w hw
  | succ t ih =>
    have : t + 1 + (wrrTotal w).toNat = (t + (wrrTotal w).toNat) + 1 := by omega
    rw [this]
    show (wrrStep w (wrrState w (t + (wrrTotal w).toNat))).2 =
      (wrrStep w (wrrState w t)).2
    rw [ih]

theorem wrrSel_periodic {n : ℕ} (hn : 0 < n) (w : Fin n → Int)
    (hw : ∀ i, 1 ≤ w i) (t : ℕ) :
    wrrSel w (t + (wrrTotal w).toNat) = wrrSel w t := by
  unfold wrrSel
  rw [wrrState_periodic hn w hw t]

/-- C6: for the weighted round-robin balancer over `n` endpoints with
positive weights `w` (smooth WRR selection: add each weight to its current
weight, pick the first maximum, subtract the total weight from the pick),
EVERY window of `∑ w` consecutive `NextTarget` selections — wherever it
starts — contains endpoint `i` exactly `w i` times. -/
theorem weightedRR_window_fairness {n : ℕ} (hn : 0 < n) (w : Fin n → Int)
    (hw : ∀ i, 1 ≤ w i) (k : ℕ) (i : Fin n) :
    (∑ u ∈ Finset.Ico k (k + (wrrTotal w).toNat),
      if wrrSel w u = some i then (1 : Int) else 0) = w i := by
  induction k with
  | zero =>
    rw [Nat.zero_add, ← Finset.range_eq_Ico]
    exact wrrCount_cycle hn w hw i
  | succ k ih =>
    have hS : 0 < wrrTotal w := wrrTotal_pos hn w hw
    have hSn : 0 < (wrrTotal w).toNat := by
      omega
    have h1 : k + 1 + (wrrTotal w).toNat = (k + (wrrTotal w).toNat) + 1 := by
      omega
    have htop : (∑ u ∈ Finset.Ico (k + 1) ((k + (wrrTotal w).toNat) + 1),
        if wrrSel w u = some i then (1 : Int) else 0) =
        (∑ u ∈ Finset.Ico (k + 1) (k + (wrrTotal w).toNat),
          if wrrSel w u = some i then (1 : Int) else 0) +
        (if wrrSel w (k + (wrrTotal w).toNat) = some i then (1 : Int) else 0) :=
      Finset.sum_Ico_succ_top (by omega) _
    have hbot : (∑ u ∈ Finset.Ico k (k + (wrrTotal w).toNat),
        if wrrSel w u = some i then (1 : Int) else 0) =
        (if wrrSel w k = some i then (1 : Int) else 0) +
        (∑ u ∈ Finset.Ico (k + 1) (k + (wrrTotal w).toNat),
          if wrrSel w u = some i then (1 : Int) else 0) :=
      Finset.sum_eq_sum_Ico_succ_bot (by omega) _
    rw [h1, htop, wrrSel_periodic hn w hw k]
    rw [hbot] at ih
    omega

/-- C6 witness: weights `![2, 1]` (total 3): the window of 3 selections
starting at position 1 contains endpoint 0 exactly twice, and endpoint 1
exactly once. -/
theorem weightedRR_window_fairness_witness :
    (0 < 2 ∧ ∀ i : Fin 2, 1 ≤ (![2, 1] : Fin 2 → Int) i) ∧
    (∑ u ∈ Finset.Ico 1 (1 + (wrrTotal (![2, 1] : Fin 2 → Int)).toNat),
      if wrrSel (![2, 1] : Fin 2 → Int) u = some 0 then (1 : Int) else 0) = 2 ∧
    (∑ u ∈ Finset.Ico 1 (1 + (wrrTotal (![2, 1] : Fin 2 → Int)).toNat),
      if wrrSel (![2, 1] : Fin 2 → Int) u = some 1 then (1 : Int) else 0) = 1 := by
  refine ⟨⟨by decide, by decide⟩, ?_, ?_⟩
  · exact weightedRR_window_fairness (by decide) ![2, 1] (by decide) 1 0
  · exact weightedRR_window_fairness (by decide) ![2, 1] (by decide) 1 1

end Gateway
